import Mathlib

/-
Shallow embedding of IxDay/http-cache (cache.go), an HTTP response-caching
middleware, together with proofs about its decision logic: cache-key
derivation, freshness evaluation, the forced-refresh path, the entry codec
and the response-capturing writer.

Modelling conventions:
- bytes are naturals (a byte is a `Nat`, `< 256` on every code path that
  produces real bytes); machine 64-bit arithmetic is `Nat` with explicit
  `% 2 ^ 64`;
- `time.Time` values are `Nat` instants (the zero `time.Time` is the
  minimal instant, as in Go where the zero time precedes every `time.Now()`);
- strings are Lean `String`s; byte views of strings use code points, which
  agrees with Go's byte view on the ASCII alphabet exercised here.
-/

namespace HttpCache

/-- Byte view of a string (code points; identical to UTF-8 bytes on ASCII). -/
def strBytes (s : String) : List Nat := s.toList.map Char.toNat

/- Entry codec.  cache.go uses encoding/gob (`Response.Bytes`,
`BytesToResponse`).  gob is Go standard library, not repository code; it is
modelled here by a concrete executable serializer with gob's contract
(spec §4.1): an injective byte serialization of the five `Response` fields
whose decoder is total, ignores trailing bytes after a complete value (as a
single `gob.Decoder.Decode` call does) and, like `dec.Decode(&r)` with the
error discarded, leaves the zero value in place on malformed input. -/

/-- Varint encoding of a natural: little-endian base-128 digits, every byte
except the last carrying the high bit.  Self-delimiting.  The first argument
is recursion fuel (structural, so that encodings compute inside the kernel);
any fuel at least the number being encoded suffices, and the fuel-exhausted
arm is reached only for 0. -/
def encNatAux : Nat → Nat → List Nat
  | 0, n => [n % 128]
  | fuel + 1, n =>
    if n < 128 then [n] else (n % 128 + 128) :: encNatAux fuel (n / 128)

/-- Varint encoding of a natural, with the fuel instantiated. -/
def encNat (n : Nat) : List Nat := encNatAux n n

/-- Decoder for `encNat`; consumes a prefix, returns the rest. -/
def decNat : List Nat → Option (Nat × List Nat)
  | [] => none
  | b :: rest =>
    if b < 128 then some (b, rest)
    else
      match decNat rest with
      | some (m, r) => some (m * 128 + (b - 128), r)
      | none => none

/-- Concatenation of the varint encodings of a list of naturals. -/
def encAll (l : List Nat) : List Nat := l.foldr (fun x acc => encNat x ++ acc) []

/-- Decoder reading a fixed count of varints. -/
def decNatSeq : Nat → List Nat → Option (List Nat × List Nat)
  | 0, b => some ([], b)
  | n + 1, b =>
    match decNat b with
    | some (x, r) =>
      match decNatSeq n r with
      | some (xs, r2) => some (x :: xs, r2)
      | none => none
    | none => none

/-- Length-prefixed encoding of a list of naturals. -/
def encNatL (l : List Nat) : List Nat := encNat l.length ++ encAll l

/-- Decoder for `encNatL`. -/
def decNatL (b : List Nat) : Option (List Nat × List Nat) :=
  match decNat b with
  | some (n, r) => decNatSeq n r
  | none => none

/-- Encoding of a string: length-prefixed code points. -/
def encStr (s : String) : List Nat := encNatL (s.toList.map Char.toNat)

/-- Decoder for `encStr`. -/
def decStr (b : List Nat) : Option (String × List Nat) :=
  match decNatL b with
  | some (l, r) => some ((l.map Char.ofNat).asString, r)
  | none => none

/-- Length-prefixed encoding of a list of strings. -/
def encStrL (l : List String) : List Nat :=
  encNat l.length ++ l.foldr (fun s acc => encStr s ++ acc) []

/-- Decoder reading a fixed count of strings. -/
def decStrSeq : Nat → List Nat → Option (List String × List Nat)
  | 0, b => some ([], b)
  | n + 1, b =>
    match decStr b with
    | some (s, r) =>
      match decStrSeq n r with
      | some (ss, r2) => some (s :: ss, r2)
      | none => none
    | none => none

/-- Decoder for `encStrL`. -/
def decStrL (b : List Nat) : Option (List String × List Nat) :=
  match decNat b with
  | some (n, r) => decStrSeq n r
  | none => none

/-- Encoding of one header item (name, values). -/
def encHdrItem (p : String × List String) : List Nat := encStr p.1 ++ encStrL p.2

/-- Length-prefixed encoding of a header (ordered name/values pairs,
names in whatever case the handler supplied). -/
def encHdr (h : List (String × List String)) : List Nat :=
  encNat h.length ++ h.foldr (fun p acc => encHdrItem p ++ acc) []

/-- Decoder reading a fixed count of header items. -/
def decHdrSeq : Nat → List Nat → Option (List (String × List String) × List Nat)
  | 0, b => some ([], b)
  | n + 1, b =>
    match decStr b with
    | some (k, r) =>
      match decStrL r with
      | some (vs, r2) =>
        match decHdrSeq n r2 with
        | some (items, r3) => some ((k, vs) :: items, r3)
        | none => none
      | none => none
    | none => none

/-- Decoder for `encHdr`. -/
def decHdr (b : List Nat) : Option (List (String × List String) × List Nat) :=
  match decNat b with
  | some (n, r) => decHdrSeq n r
  | none => none

/-- Sign-and-magnitude encoding of an integer (Go `int` field). -/
def encInt (i : Int) : List Nat :=
  if 0 ≤ i then 0 :: encNat i.toNat else 1 :: encNat (-i).toNat

/-- Decoder for `encInt`. -/
def decInt : List Nat → Option (Int × List Nat)
  | 0 :: rest =>
    match decNat rest with
    | some (n, r) => some ((n : Int), r)
    | none => none
  | 1 :: rest =>
    match decNat rest with
    | some (n, r) => some (-(n : Int), r)
    | none => none
  | _ => none

/-- Response is the cached response data structure (cache.go lines 42-60):
payload bytes, response header, expiration instant, last-access instant and
access-frequency counter. -/
structure Response where
  Value : List Nat
  Header : List (String × List String)
  Expiration : Nat
  LastAccess : Nat
  Frequency : Int
deriving DecidableEq, Repr

/-- Bytes converts Response into a byte array (cache.go lines 176-183,
`gob` modelled as described above). -/
def Response.Bytes (r : Response) : List Nat :=
  encNatL r.Value ++ encHdr r.Header ++ encNat r.Expiration ++
    encNat r.LastAccess ++ encInt r.Frequency

/-- Structural decoder for one serialized `Response` value. -/
def decResponse (b : List Nat) : Option (Response × List Nat) :=
  match decNatL b with
  | some (v, b1) =>
    match decHdr b1 with
    | some (h, b2) =>
      match decNat b2 with
      | some (e, b3) =>
        match decNat b3 with
        | some (la, b4) =>
          match decInt b4 with
          | some (f, b5) => some (⟨v, h, e, la, f⟩, b5)
          | none => none
        | none => none
      | none => none
    | none => none
  | none => none

/-- The zero value of `Response` (what Go's `var r Response` starts from). -/
def zeroResponse : Response := ⟨[], [], 0, 0, 0⟩

/-- BytesToResponse converts a byte array into a Response (cache.go lines
167-174): the decode error is discarded, so malformed input leaves the
zero value. -/
def BytesToResponse (b : List Nat) : Response :=
  match decResponse b with
  | some (r, _) => r
  | none => zeroResponse

/- Model of net/url query handling (url.Values, URL.Query, Values.Encode),
the Go standard library functions cache.go relies on.  A `url.Values`
(`map[string][]string`) is represented canonically as a key-sorted
association list: Go map iteration order is unobservable here, because the
only consumers are key lookup, key deletion, per-value-slice sorting and
`Encode`, and `Encode` itself iterates keys in sorted order.  Percent
escaping (QueryEscape/QueryUnescape) is modelled as the identity, which is
faithful for queries over unreserved ASCII characters. -/

abbrev Values := List (String × List String)

/-- Split on the separator character, exactly as Go's ParseQuery loop does
with strings.Cut (a trailing separator yields no trailing segment).  The
first argument is recursion fuel (structural, so that parsing computes
inside the kernel); any fuel at least the list length suffices. -/
def splitAmpAux : Nat → List Char → List (List Char)
  | _, [] => []
  | 0, _ :: _ => []
  | fuel + 1, c :: rest =>
    (c :: rest).takeWhile (fun x => x ≠ '&') ::
      splitAmpAux fuel (((c :: rest).dropWhile (fun x => x ≠ '&')).tail)

/-- Split on '&', with the fuel instantiated. -/
def splitAmp (cs : List Char) : List (List Char) := splitAmpAux cs.length cs

/-- Cut a segment at the first '=' into key and value (strings.Cut: when no
'=' occurs, the value is empty). -/
def cutEq (seg : List Char) : String × String :=
  ((seg.takeWhile (fun c => c ≠ '=')).asString,
   ((seg.dropWhile (fun c => c ≠ '=')).tail).asString)

/-- The (key, value) pairs of a raw query in order of appearance:
ParseQuery splits on '&', skips empty segments and segments containing ';'
(Go records an error for those and drops them; Query() discards the error),
and cuts each remaining segment at the first '='. -/
def parsePairs (q : String) : List (String × String) :=
  (splitAmp q.toList).filterMap (fun seg =>
    if seg.isEmpty then none
    else if seg.contains ';' then none
    else some (cutEq seg))

/-- Go's string comparison `a < b`: lexicographic on the character sequence
(byte-wise in Go; identical on ASCII), as an executable Boolean. -/
def lexLt : List Char → List Char → Bool
  | [], [] => false
  | [], _ :: _ => true
  | _ :: _, [] => false
  | a :: as, b :: bs =>
    if a.toNat < b.toNat then true
    else if b.toNat < a.toNat then false
    else lexLt as bs

/-- The corresponding `a ≤ b` (not `b < a`); sort.Slice with the strict
less of cache.go line 189 produces a sequence sorted by this relation. -/
abbrev strLe (a b : String) : Prop := lexLt b.toList a.toList = false

/-- The strict string order `a < b` as a proposition. -/
abbrev strLt (a b : String) : Prop := lexLt a.toList b.toList = true

/-- Insert one value for a key into the canonical (key-sorted) map
representation, appending to the key's slice as `m[key] = append(m[key], value)`
does.  Keys are kept in the byte-lexicographic order that Encode's
sort.Strings uses. -/
def insertVal : Values → String → String → Values
  | [], k, v => [(k, [v])]
  | (k', ws) :: rest, k, v =>
    if k = k' then (k', ws ++ [v]) :: rest
    else if lexLt k.toList k'.toList then (k, [v]) :: (k', ws) :: rest
    else (k', ws) :: insertVal rest k v

/-- Model of r.URL.Query(): parse the raw query into a url.Values. -/
def parseQuery (q : String) : Values :=
  (parsePairs q).foldl (fun acc kv => insertVal acc kv.1 kv.2) []

/-- All (key, value) pairs of a Values in Encode's iteration order: keys in
sorted order (our representation is key-sorted), values in slice order. -/
def pairsOf (vs : Values) : List (String × String) :=
  vs.foldr (fun p acc => (p.2.map (fun w => (p.1, w))) ++ acc) []

/-- Join segments with '&' (Encode writes '&' between successive pairs). -/
def joinAmp : List (List Char) → List Char
  | [] => []
  | [s] => s
  | s :: rest => s ++ '&' :: joinAmp rest

/-- Model of url.Values.Encode: "k=v" pairs, keys sorted, joined by '&'. -/
def encodeValues (vs : Values) : String :=
  (joinAmp ((pairsOf vs).map (fun kv => kv.1.toList ++ '=' :: kv.2.toList))).asString

/-- Sort the values within each parameter (sort.Slice with Go's string
less on each value slice, cache.go lines 185-191). -/
def sortVals (vs : Values) : Values :=
  vs.map (fun p => (p.1, p.2.insertionSort strLe))

/-- sortURLParams (cache.go lines 185-193) as a raw-query transformer:
parse, sort each value slice, re-encode. -/
def sortURLParamsQ (q : String) : String := encodeValues (sortVals (parseQuery q))

/-- Key membership in a url.Values (`_, ok := params[k]`). -/
def hasKey (vs : Values) (k : String) : Bool := vs.any (fun p => p.1 == k)

/-- Key removal from a url.Values (`delete(params, k)`). -/
def eraseKey (vs : Values) (k : String) : Values := vs.filter (fun p => p.1 != k)

/- The middleware. -/

/-- An inbound HTTP request: the parts of *http.Request that cache.go
reads.  `body = none` models a nil Body. -/
structure Request where
  method : String
  path : String
  rawQuery : String
  header : List (String × List String)
  body : Option (List Nat)
deriving DecidableEq, Repr

/-- r.URL.String() for a server-side URL: path, plus "?"+RawQuery when the
raw query is nonempty. -/
def urlString (r : Request) : String :=
  if r.rawQuery = "" then r.path else r.path ++ "?" ++ r.rawQuery

/-- sortURLParams applied to the request's URL (it mutates URL.RawQuery). -/
def sortURLParamsR (r : Request) : Request :=
  { r with rawQuery := sortURLParamsQ r.rawQuery }

/-- FNV-1a 64-bit offset basis (hash/fnv). -/
def fnvOffset : Nat := 14695981039346656037

/-- FNV-1a 64-bit prime (hash/fnv). -/
def fnvPrime : Nat := 1099511628211

/-- One FNV-1a step: xor in the byte, multiply by the prime modulo 2^64. -/
def fnvStep (h b : Nat) : Nat := ((h ^^^ b) * fnvPrime) % (2 ^ 64)

/-- hash.Write: absorb a byte sequence into the running FNV-1a state. -/
def fnvSum (h : Nat) (bs : List Nat) : Nat := bs.foldl fnvStep h

/-- r.Header.Values(k): the value slice for a header name.  Go canonicalizes
the name first; names are assumed already canonical here, so the lookup is
exact. -/
def headerValues (h : List (String × List String)) (k : String) : List String :=
  match h.find? (fun p => p.1 == k) with
  | some p => p.2
  | none => []

/-- The client configuration (cache.go lines 62-71).  The adapter is the
external collaborator and is passed separately as a `Store` value. -/
structure Client where
  ttl : Nat
  refreshKey : String
  methods : List String
  writeExpiresHeader : Bool
  vary : List String
  generateKey : Request → List Nat

/-- DefaultGenerateKey (cache.go lines 211-221): URL string, plus the body
bytes for a POST with non-nil body.  (The io.ReadAll error path is not
modelled; reading a pure byte list cannot fail.) -/
def DefaultGenerateKey (r : Request) : List Nat :=
  if r.method = "POST" then
    match r.body with
    | some body => strBytes (urlString r) ++ body
    | none => strBytes (urlString r)
  else strBytes (urlString r)

/-- Client.hash (cache.go lines 200-209): FNV-1a over generateKey's output,
then over each configured vary header's concatenated values when nonempty. -/
def chash (c : Client) (r : Request) : Nat :=
  c.vary.foldl
    (fun h hd =>
      let value := String.join (headerValues r.header hd)
      if value ≠ "" then fnvSum h (strBytes value) else h)
    (fnvSum fnvOffset (c.generateKey r))

/-- Client.cacheableMethod (cache.go lines 158-165). -/
def cacheableMethod (c : Client) (m : String) : Bool := c.methods.contains m

/-- The storage adapter's state: a finite map from 64-bit key to stored
bytes.  Get/Set/Release per the Adapter interface (cache.go lines 76-87). -/
abbrev Store := List (Nat × List Nat)

/-- Adapter.Get: the stored bytes for a key, if present. -/
def storeGet (s : Store) (k : Nat) : Option (List Nat) :=
  match s.find? (fun p => p.1 == k) with
  | some p => some p.2
  | none => none

/-- Adapter.Set: store bytes under a key (overwriting). -/
def storeSet (s : Store) (k : Nat) (v : List Nat) : Store :=
  (k, v) :: s.filter (fun p => p.1 != k)

/-- Adapter.Release: remove any entry for a key. -/
def storeRelease (s : Store) (k : Nat) : Store := s.filter (fun p => p.1 != k)

/-- One adapter call, recorded in order of issue. -/
inductive AdapterOp
  | get (key : Nat)
  | set (key : Nat) (value : List Nat) (expiration : Nat)
  | release (key : Nat)
deriving DecidableEq, Repr

/-- One interaction of the wrapped handler with the capturing writer. -/
inductive WriterEvent
  | writeHeader (statusCode : Nat)
  | write (chunk : List Nat)
deriving DecidableEq, Repr

/-- The recording fields of responseWriter (cache.go lines 319-323); the
underlying http.ResponseWriter is not modelled (writes are delegated). -/
structure WriterState where
  statusCode : Nat
  body : List Nat
deriving DecidableEq, Repr

/-- responseWriter's methods (cache.go lines 325-333): WriteHeader records
the status code; Write records exactly the bytes of that call (`w.body = b`
overwrites any previously recorded bytes instead of appending). -/
def writerStep (w : WriterState) : WriterEvent → WriterState
  | .writeHeader s => { w with statusCode := s }
  | .write b => { w with body := b }

/-- The capturing writer's state after the handler returns, starting from
Go's zero value (statusCode 0, nil body). -/
def runWriter (evs : List WriterEvent) : WriterState :=
  evs.foldl writerStep { statusCode := 0, body := [] }

/-- What the wrapped handler did: its writer interactions and the response
header map it populated (rw.Header() delegates to the underlying writer). -/
structure HandlerRun where
  events : List WriterEvent
  header : List (String × List String)

/-- The wrapped handler, as a function of the request it is served. -/
abbrev Handler := Request → HandlerRun

/-- How the middleware answered one request. -/
inductive Outcome
  | bypassed (r : Request)
  | fromCache (resp : Response)
  | forwarded (r : Request) (stored : Bool)
deriving DecidableEq, Repr

/-- Result of one middleware invocation: final adapter state, the adapter
calls issued in order, and the outcome. -/
structure MidResult where
  store : Store
  trace : List AdapterOp
  outcome : Outcome
deriving DecidableEq, Repr

/-- The forward path (cache.go lines 138-155): run the handler against the
capturing writer; if the captured status code is below 400, build the new
entry and Set it under the key with expiration now + ttl, else store
nothing. -/
def forward (c : Client) (next : Handler) (now : Nat) (r : Request) (key : Nat)
    (store : Store) : MidResult :=
  let run := next r
  let rw := runWriter run.events
  let statusCode := rw.statusCode
  let value := rw.body
  let expires := now + c.ttl
  if statusCode < 400 then
    let response : Response :=
      { Value := value, Header := run.header, Expiration := expires,
        LastAccess := now, Frequency := 1 }
    { store := storeSet store key response.Bytes,
      trace := [AdapterOp.set key response.Bytes expires],
      outcome := Outcome.forwarded r true }
  else
    { store := store, trace := [], outcome := Outcome.forwarded r false }

/-- Client.Middleware's per-request handler (cache.go lines 92-156).  The
up-to-three time.Now() calls of one request are modelled as the single
instant `now`. -/
def Middleware (c : Client) (next : Handler) (now : Nat) (r : Request)
    (store : Store) : MidResult :=
  if cacheableMethod c r.method then
    let r1 := sortURLParamsR r
    let key := chash c r1
    let params := parseQuery r1.rawQuery
    if hasKey params c.refreshKey then
      let params2 := eraseKey params c.refreshKey
      let r2 := { r1 with rawQuery := encodeValues params2 }
      let key2 := chash c r2
      let store2 := storeRelease store key2
      let fr := forward c next now r2 key2 store2
      { fr with trace := AdapterOp.release key2 :: fr.trace }
    else
      match storeGet store key with
      | some b =>
        let response := BytesToResponse b
        if now < response.Expiration then
          let response2 :=
            { response with LastAccess := now, Frequency := response.Frequency + 1 }
          { store := storeSet store key response2.Bytes,
            trace := [AdapterOp.get key,
                      AdapterOp.set key response2.Bytes response2.Expiration],
            outcome := Outcome.fromCache response2 }
        else
          let store2 := storeRelease store key
          let fr := forward c next now r1 key store2
          { fr with trace := AdapterOp.get key :: AdapterOp.release key :: fr.trace }
      | none =>
        let fr := forward c next now r1 key store
        { fr with trace := AdapterOp.get key :: fr.trace }
  else
    { store := store, trace := [], outcome := Outcome.bypassed r }

/- Well-formedness of the canonical Values representation. -/

/-- Ordering of map entries by key (strict byte-lexicographic). -/
def keyLT (p q : String × List String) : Prop := strLt p.1 q.1

/-- Characters a parsed key can never contain. -/
def keyOK (k : String) : Prop := '&' ∉ k.toList ∧ '=' ∉ k.toList ∧ ';' ∉ k.toList

/-- Characters a parsed value can never contain. -/
def valOK (w : String) : Prop := '&' ∉ w.toList ∧ ';' ∉ w.toList

/-- All keys and values of a Values are parse-shaped. -/
def valsOK (vs : Values) : Prop := ∀ p ∈ vs, keyOK p.1 ∧ ∀ w ∈ p.2, valOK w

/-- Whether an outcome was served from cache. -/
def Outcome.servedFromCache : Outcome → Bool
  | .fromCache _ => true
  | _ => false

/-- Whether an outcome forwarded to the wrapped handler. -/
def Outcome.wasForwarded : Outcome → Bool
  | .forwarded _ _ => true
  | _ => false

/-- Whether a writer event is a WriteHeader call. -/
def isWriteHeader : WriterEvent → Bool
  | .writeHeader _ => true
  | .write _ => false

/-- Pointwise equivalence of two parsed queries: identical keys in identical
order, value slices equal up to permutation (two requests differing only in
the internal ordering of repeated parameters' values). -/
def qEquiv : Values → Values → Bool
  | [], [] => true
  | (k1, ws1) :: t1, (k2, ws2) :: t2 => k1 == k2 && ws1.isPerm ws2 && qEquiv t1 t2
  | _, _ => false

/- Concrete material used by the witnesses below. -/

/-- A concrete client: TTL 10, no refresh key, GET cacheable, no vary, the
default key generator (the zero configuration NewClient completes). -/
def cGet : Client :=
  { ttl := 10, refreshKey := "", methods := ["GET"], writeExpiresHeader := false,
    vary := [], generateKey := DefaultGenerateKey }

/-- The same client with refresh parameter name "_refresh". -/
def cRefresh : Client := { cGet with refreshKey := "_refresh" }

/-- A handler answering 200 "hello" with one header. -/
def hOk : Handler := fun _ =>
  { events := [WriterEvent.writeHeader 200, WriterEvent.write (strBytes "hello")],
    header := [("Content-Type", ["text/plain"])] }

/-- A handler that writes a body but never calls WriteHeader. -/
def hNoStatus : Handler := fun _ =>
  { events := [WriterEvent.write (strBytes "ok")], header := [] }

/-- A request with no query string. -/
def rPlain : Request := { method := "GET", path := "/a", rawQuery := "", header := [], body := none }

/-- The same request with a repeated parameter, values out of order. -/
def rVals : Request := { rPlain with rawQuery := "x=2&x=1" }

/-- The same request with the values in the other order. -/
def rVals2 : Request := { rPlain with rawQuery := "x=1&x=2" }

/-- The same request carrying the refresh parameter. -/
def rRefresh : Request := { rPlain with rawQuery := "_refresh=1" }

/-- The same request with an empty-named query parameter. -/
def rNoName : Request := { rPlain with rawQuery := "=1" }

/-- A stored entry that is fresh until instant 100. -/
def eFresh : Response :=
  { Value := strBytes "cached", Header := [("X-Tag", ["1"])], Expiration := 100,
    LastAccess := 2, Frequency := 3 }

/-- An entry with multi-value and mixed-case headers. -/
def eMulti : Response :=
  { Value := strBytes "hello",
    Header := [("Set-Cookie", ["a=1", "b=2"]), ("X-CaSe", ["MiXeD"])],
    Expiration := 123, LastAccess := 45, Frequency := 2 }

/-- A store holding `eFresh` under the key `cGet` derives for `rPlain`. -/
def sFresh : Store := [(chash cGet (sortURLParamsR rPlain), eFresh.Bytes)]

/-- A store holding `eFresh` under the key `cGet` derives for `rNoName`. -/
def sNoName : Store := [(chash cGet (sortURLParamsR rNoName), eFresh.Bytes)]

/- Codec round-trip lemmas. -/

theorem decNat_encNatAux :
    ∀ (fuel n : Nat), n ≤ fuel → ∀ rest, decNat (encNatAux fuel n ++ rest) = some (n, rest) := by
  intro fuel
  induction fuel with
  | zero =>
    intro n hn rest
    have h0 : n = 0 := Nat.le_zero.mp hn
    subst h0
    simp [encNatAux, decNat]
  | succ fuel ih =>
    intro n hn rest
    rw [encNatAux]
    split
    · next h => simp [decNat, h]
    · next h =>
      have hd : n / 128 ≤ fuel := by omega
      have hb : ¬ (n % 128 + 128 < 128) := by omega
      simp only [List.cons_append, decNat, if_neg hb, List.append_eq, ih _ hd rest]
      have he : n / 128 * 128 + (n % 128 + 128 - 128) = n := by omega
      rw [he]

theorem decNat_encNat (n : Nat) : ∀ rest, decNat (encNat n ++ rest) = some (n, rest) :=
  decNat_encNatAux n n le_rfl

theorem decNatSeq_encAll (l : List Nat) :
    ∀ rest, decNatSeq l.length (encAll l ++ rest) = some (l, rest) := by
  induction l with
  | nil => intro rest; simp [encAll, decNatSeq]
  | cons x xs ih =>
    intro rest
    have : encAll (x :: xs) = encNat x ++ encAll xs := rfl
    rw [List.length_cons, this, List.append_assoc]
    simp only [decNatSeq, decNat_encNat, ih]

theorem decNatL_encNatL (l : List Nat) (rest : List Nat) :
    decNatL (encNatL l ++ rest) = some (l, rest) := by
  rw [encNatL, List.append_assoc]
  simp only [decNatL, decNat_encNat, decNatSeq_encAll]

theorem decStr_encStr (s : String) (rest : List Nat) :
    decStr (encStr s ++ rest) = some (s, rest) := by
  simp only [decStr, encStr, decNatL_encNatL, List.map_map]
  have : (s.toList.map fun c => Char.ofNat (Char.toNat c)) = s.toList := by
    simp [Char.ofNat_toNat]
  simp only [Function.comp_def, this]
  rfl

theorem decStrSeq_enc (l : List String) :
    ∀ rest, decStrSeq l.length ((l.foldr (fun s acc => encStr s ++ acc) []) ++ rest) =
      some (l, rest) := by
  induction l with
  | nil => intro rest; simp [decStrSeq]
  | cons s ss ih =>
    intro rest
    rw [List.length_cons, List.foldr_cons, List.append_assoc]
    simp only [decStrSeq, decStr_encStr, ih]

theorem decStrL_encStrL (l : List String) (rest : List Nat) :
    decStrL (encStrL l ++ rest) = some (l, rest) := by
  rw [encStrL, List.append_assoc]
  simp only [decStrL, decNat_encNat, decStrSeq_enc]

theorem decHdrSeq_enc (h : List (String × List String)) :
    ∀ rest, decHdrSeq h.length ((h.foldr (fun p acc => encHdrItem p ++ acc) []) ++ rest) =
      some (h, rest) := by
  induction h with
  | nil => intro rest; simp [decHdrSeq]
  | cons p ps ih =>
    intro rest
    rw [List.length_cons, List.foldr_cons, List.append_assoc, encHdrItem, List.append_assoc]
    simp only [decHdrSeq, decStr_encStr, decStrL_encStrL, ih]

theorem decHdr_encHdr (h : List (String × List String)) (rest : List Nat) :
    decHdr (encHdr h ++ rest) = some (h, rest) := by
  rw [encHdr, List.append_assoc]
  simp only [decHdr, decNat_encNat, decHdrSeq_enc]

theorem decInt_encInt (i : Int) (rest : List Nat) :
    decInt (encInt i ++ rest) = some (i, rest) := by
  rw [encInt]
  by_cases h : 0 ≤ i
  · simp only [if_pos h, List.cons_append, decInt, decNat_encNat]
    rw [Int.toNat_of_nonneg h]
  · simp only [if_neg h, List.cons_append, decInt, decNat_encNat]
    have : ((-i).toNat : Int) = -i := Int.toNat_of_nonneg (by omega)
    rw [this, neg_neg]

theorem decResponse_bytes (r : Response) (rest : List Nat) :
    decResponse (r.Bytes ++ rest) = some (r, rest) := by
  rw [Response.Bytes]
  simp only [List.append_assoc, decResponse, decNatL_encNatL, decHdr_encHdr,
    decNat_encNat, decInt_encInt]

/-- The codec round-trips every entry exactly. -/
theorem bytesToResponse_bytes (r : Response) : BytesToResponse r.Bytes = r := by
  have := decResponse_bytes r []
  rw [List.append_nil] at this
  rw [BytesToResponse, this]

/- Generic takeWhile and dropWhile helpers. -/

theorem takeWhile_all {α} {p : α → Bool} :
    ∀ {l : List α}, (∀ a ∈ l, p a = true) → l.takeWhile p = l := by
  intro l
  induction l with
  | nil => intro _; rfl
  | cons a t ih =>
    intro h
    rw [List.takeWhile_cons_of_pos (h a (by simp)), ih (fun b hb => h b (by simp [hb]))]

theorem dropWhile_all {α} {p : α → Bool} :
    ∀ {l : List α}, (∀ a ∈ l, p a = true) → l.dropWhile p = [] := by
  intro l
  induction l with
  | nil => intro _; rfl
  | cons a t ih =>
    intro h
    rw [List.dropWhile_cons_of_pos (h a (by simp)), ih (fun b hb => h b (by simp [hb]))]

theorem mem_takeWhile_pred {α} {p : α → Bool} :
    ∀ {l : List α} {a : α}, a ∈ l.takeWhile p → p a = true := by
  intro l
  induction l with
  | nil => intro a h; simp [List.takeWhile] at h
  | cons b t ih =>
    intro a h
    by_cases hb : p b = true
    · rw [List.takeWhile_cons_of_pos hb] at h
      rcases List.mem_cons.mp h with he | ht
      · rwa [he]
      · exact ih ht
    · rw [List.takeWhile_cons_of_neg (by simpa using hb)] at h
      simp at h

theorem takeWhile_eq_of_append {α} {p : α → Bool} (l1 l2 : List α) (x : α)
    (h1 : ∀ a ∈ l1, p a = true) (hx : p x = false) :
    (l1 ++ x :: l2).takeWhile p = l1 := by
  rw [List.takeWhile_append_of_pos h1,
    List.takeWhile_cons_of_neg (by simp [hx]), List.append_nil]

theorem dropWhile_eq_of_append {α} {p : α → Bool} (l1 l2 : List α) (x : α)
    (h1 : ∀ a ∈ l1, p a = true) (hx : p x = false) :
    (l1 ++ x :: l2).dropWhile p = x :: l2 := by
  rw [List.dropWhile_append_of_pos h1, List.dropWhile_cons_of_neg (by simp [hx])]

theorem filterMap_eq_self {α} {f : α → Option α} :
    ∀ {l : List α}, (∀ a ∈ l, f a = some a) → l.filterMap f = l := by
  intro l
  induction l with
  | nil => intro _; rfl
  | cons a t ih =>
    intro h
    rw [List.filterMap_cons, h a (by simp), ih (fun b hb => h b (by simp [hb]))]

/- Order lemmas for the Go string comparison. -/

theorem lexLt_asymm : ∀ as bs, lexLt as bs = true → lexLt bs as = false := by
  intro as
  induction as with
  | nil =>
    intro bs h
    cases bs with
    | nil => simp [lexLt] at h
    | cons b bs => simp [lexLt]
  | cons a as ih =>
    intro bs h
    cases bs with
    | nil => simp [lexLt] at h
    | cons b bs =>
      rw [lexLt] at h ⊢
      by_cases h1 : a.toNat < b.toNat
      · rw [if_neg (by omega), if_pos h1]
      · by_cases h2 : b.toNat < a.toNat
        · rw [if_neg h1, if_pos h2] at h
          exact absurd h (by simp)
        · rw [if_neg h1, if_neg h2] at h
          rw [if_neg h2, if_neg h1]
          exact ih bs h

theorem lexLt_conn : ∀ as bs, lexLt as bs = false → lexLt bs as = false → as = bs := by
  intro as
  induction as with
  | nil =>
    intro bs h1 _
    cases bs with
    | nil => rfl
    | cons b bs => simp [lexLt] at h1
  | cons a as ih =>
    intro bs h1 h2
    cases bs with
    | nil => simp [lexLt] at h2
    | cons b bs =>
      rw [lexLt] at h1 h2
      by_cases hab : a.toNat < b.toNat
      · rw [if_pos hab] at h1
        exact absurd h1 (by simp)
      by_cases hba : b.toNat < a.toNat
      · rw [if_pos hba] at h2
        exact absurd h2 (by simp)
      rw [if_neg hab, if_neg hba] at h1
      rw [if_neg hba, if_neg hab] at h2
      have hchar : a = b := by
        have hn : a.toNat = b.toNat := by omega
        calc a = Char.ofNat a.toNat := (Char.ofNat_toNat a).symm
        _ = Char.ofNat b.toNat := by rw [hn]
        _ = b := Char.ofNat_toNat b
      rw [hchar, ih bs h1 h2]

theorem lexLt_le_trans : ∀ as bs cs, lexLt bs as = false → lexLt cs bs = false →
    lexLt cs as = false := by
  intro as
  induction as with
  | nil =>
    intro bs cs _ _
    cases cs <;> rfl
  | cons a as ih =>
    intro bs cs h1 h2
    cases bs with
    | nil => simp [lexLt] at h1
    | cons b bs =>
      cases cs with
      | nil => simp [lexLt] at h2
      | cons c cs =>
        rw [lexLt] at h1 h2 ⊢
        have hba : ¬ b.toNat < a.toNat := by
          intro hc
          rw [if_pos hc] at h1
          exact absurd h1 (by simp)
        have hcb : ¬ c.toNat < b.toNat := by
          intro hc
          rw [if_pos hc] at h2
          exact absurd h2 (by simp)
        rw [if_neg (show ¬ c.toNat < a.toNat by omega)]
        by_cases hac : a.toNat < c.toNat
        · rw [if_pos hac]
        · rw [if_neg hac]
          rw [if_neg hba, if_neg (show ¬ a.toNat < b.toNat by omega)] at h1
          rw [if_neg hcb, if_neg (show ¬ b.toNat < c.toNat by omega)] at h2
          exact ih bs cs h1 h2

instance : IsTotal String strLe :=
  ⟨by
    intro a b
    by_cases h : lexLt b.toList a.toList = true
    · right
      exact lexLt_asymm _ _ h
    · left
      exact Bool.eq_false_iff.mpr h⟩

instance : IsTrans String strLe :=
  ⟨fun a b c h1 h2 => lexLt_le_trans a.toList b.toList c.toList h1 h2⟩

instance : IsAntisymm String strLe :=
  ⟨by
    intro a b h1 h2
    have he := lexLt_conn b.toList a.toList h1 h2
    have := congrArg List.asString he
    rw [String.asString_toList, String.asString_toList] at this
    exact this.symm⟩

theorem lexLt_irrefl : ∀ as, lexLt as as = false := by
  intro as
  induction as with
  | nil => rfl
  | cons a as ih =>
    rw [lexLt, if_neg (Nat.lt_irrefl _), if_neg (Nat.lt_irrefl _)]
    exact ih

theorem lexLt_trans : ∀ as bs cs, lexLt as bs = true → lexLt bs cs = true →
    lexLt as cs = true := by
  intro as
  induction as with
  | nil =>
    intro bs cs h1 h2
    cases bs with
    | nil => simp [lexLt] at h1
    | cons b bs =>
      cases cs with
      | nil => simp [lexLt] at h2
      | cons c cs => rfl
  | cons a as ih =>
    intro bs cs h1 h2
    cases bs with
    | nil => simp [lexLt] at h1
    | cons b bs =>
      cases cs with
      | nil => simp [lexLt] at h2
      | cons c cs =>
        rw [lexLt] at h1 h2 ⊢
        have h1x : a.toNat < b.toNat ∨ (a.toNat = b.toNat ∧ lexLt as bs = true) := by
          by_cases hx : a.toNat < b.toNat
          · left; exact hx
          · by_cases hy : b.toNat < a.toNat
            · rw [if_neg hx, if_pos hy] at h1
              exact absurd h1 (by simp)
            · right
              refine ⟨by omega, ?_⟩
              rwa [if_neg hx, if_neg hy] at h1
        have h2x : b.toNat < c.toNat ∨ (b.toNat = c.toNat ∧ lexLt bs cs = true) := by
          by_cases hx : b.toNat < c.toNat
          · left; exact hx
          · by_cases hy : c.toNat < b.toNat
            · rw [if_neg hx, if_pos hy] at h2
              exact absurd h2 (by simp)
            · right
              refine ⟨by omega, ?_⟩
              rwa [if_neg hx, if_neg hy] at h2
        rcases h1x with hx | ⟨hex, hrx⟩
        · rcases h2x with hy | ⟨hey, _⟩
          · rw [if_pos (by omega)]
          · rw [if_pos (by omega)]
        · rcases h2x with hy | ⟨hey, hry⟩
          · rw [if_pos (by omega)]
          · rw [if_neg (show ¬ a.toNat < c.toNat by omega),
              if_neg (show ¬ c.toNat < a.toNat by omega)]
            exact ih bs cs hrx hry

theorem strLt_asymm {a b : String} (h : strLt a b) : ¬ strLt b a := by
  intro h2
  have h3 := lexLt_asymm _ _ h
  rw [h2] at h3
  exact absurd h3 (by simp)

theorem strLt_irrefl (a : String) : ¬ strLt a a := by
  intro h
  have h2 := lexLt_irrefl a.toList
  rw [h] at h2
  exact absurd h2 (by simp)

theorem strLt_ne {a b : String} (h : strLt a b) : a ≠ b := by
  intro he
  rw [he] at h
  exact strLt_irrefl b h

theorem strLt_trans {a b c : String} (h1 : strLt a b) (h2 : strLt b c) : strLt a c :=
  lexLt_trans _ _ _ h1 h2

theorem strLt_of_ne_of_not_lt {a b : String} (h1 : ¬ a = b) (h2 : ¬ strLt a b) :
    strLt b a := by
  by_cases h3 : strLt b a
  · exact h3
  · have hfa : lexLt a.toList b.toList = false := Bool.eq_false_iff.mpr h2
    have hfb : lexLt b.toList a.toList = false := Bool.eq_false_iff.mpr h3
    have hl := lexLt_conn _ _ hfa hfb
    have := congrArg List.asString hl
    rw [String.asString_toList, String.asString_toList] at this
    exact absurd this h1

/- Lemmas about splitAmp, joinAmp and cutEq. -/

theorem splitAmp_nil : splitAmp [] = [] := rfl

theorem splitAmpAux_congr :
    ∀ (f1 : Nat) (cs : List Char) (f2 : Nat), cs.length ≤ f1 → cs.length ≤ f2 →
      splitAmpAux f1 cs = splitAmpAux f2 cs := by
  intro f1
  induction f1 with
  | zero =>
    intro cs f2 h1 _
    have : cs = [] := List.length_eq_zero.mp (Nat.le_zero.mp h1)
    subst this
    cases f2 <;> rfl
  | succ f ih =>
    intro cs f2 h1 h2
    cases cs with
    | nil => cases f2 <;> rfl
    | cons c rest =>
      cases f2 with
      | zero => simp at h2
      | succ f2x =>
        rw [splitAmpAux, splitAmpAux]
        congr 1
        have hlen : (((c :: rest).dropWhile (fun x => x ≠ '&')).tail).length ≤ f ∧
            (((c :: rest).dropWhile (fun x => x ≠ '&')).tail).length ≤ f2x := by
          have := (List.dropWhile_sublist (l := c :: rest) (fun x => x ≠ '&')).length_le
          simp only [List.length_tail, List.length_cons] at this ⊢
          simp only [List.length_cons] at h1 h2
          omega
        exact ih _ f2x hlen.1 hlen.2

theorem splitAmp_eq (cs : List Char) (hne : cs ≠ []) :
    splitAmp cs = cs.takeWhile (fun x => x ≠ '&') ::
      splitAmp ((cs.dropWhile (fun x => x ≠ '&')).tail) := by
  cases cs with
  | nil => exact absurd rfl hne
  | cons c t =>
    show splitAmpAux (c :: t).length (c :: t) = _
    rw [List.length_cons, splitAmpAux]
    congr 1
    apply splitAmpAux_congr
    · have := (List.dropWhile_sublist (l := c :: t) (fun x => x ≠ '&')).length_le
      simp only [List.length_tail, List.length_cons] at this ⊢
      omega
    · exact le_rfl

theorem splitAmp_sep_append (seg rest : List Char) (h : ∀ a ∈ seg, a ≠ '&') :
    splitAmp (seg ++ '&' :: rest) = seg :: splitAmp rest := by
  have hne : seg ++ '&' :: rest ≠ [] := by simp
  rw [splitAmp_eq _ hne,
    takeWhile_eq_of_append seg rest '&' (by simpa using h) (by simp),
    dropWhile_eq_of_append seg rest '&' (by simpa using h) (by simp)]
  rfl

theorem splitAmp_single (seg : List Char) (hne : seg ≠ []) (h : ∀ a ∈ seg, a ≠ '&') :
    splitAmp seg = [seg] := by
  rw [splitAmp_eq _ hne, takeWhile_all (by simpa using h), dropWhile_all (by simpa using h)]
  simp [splitAmp_nil]

theorem splitAmp_join (segs : List (List Char))
    (h : ∀ s ∈ segs, s ≠ [] ∧ ∀ a ∈ s, a ≠ '&') :
    splitAmp (joinAmp segs) = segs := by
  induction segs with
  | nil => exact splitAmp_nil
  | cons s ss ih =>
    cases ss with
    | nil =>
      have hs := h s (by simp)
      rw [joinAmp, splitAmp_single s hs.1 hs.2]
    | cons t ts =>
      have hj : joinAmp (s :: t :: ts) = s ++ '&' :: joinAmp (t :: ts) := rfl
      rw [hj, splitAmp_sep_append s _ (h s (by simp)).2,
        ih (fun u hu => h u (by simp [hu]))]

theorem splitAmp_mem_aux :
    ∀ (n : Nat) (cs : List Char), cs.length ≤ n →
      ∀ s ∈ splitAmp cs, ∀ a ∈ s, a ≠ '&' := by
  intro n
  induction n with
  | zero =>
    intro cs hlen s hs
    have : cs = [] := List.length_eq_zero.mp (Nat.le_zero.mp hlen)
    rw [this, splitAmp_nil] at hs
    simp at hs
  | succ n ih =>
    intro cs hlen s hs
    cases cs with
    | nil => rw [splitAmp_nil] at hs; simp at hs
    | cons c t =>
      rw [splitAmp_eq (c :: t) (by simp)] at hs
      rcases List.mem_cons.mp hs with he | ht
      · intro a ha
        subst he
        have := mem_takeWhile_pred ha
        simpa using this
      · have hdlen : (((c :: t).dropWhile (fun x => x ≠ '&')).tail).length ≤ n := by
          have hs1 := (List.dropWhile_sublist (l := c :: t) (fun x => x ≠ '&')).length_le
          simp only [List.length_tail, List.length_cons] at hs1 ⊢
          simp only [List.length_cons] at hlen
          omega
        exact ih _ hdlen s ht

theorem splitAmp_mem (cs : List Char) : ∀ s ∈ splitAmp cs, ∀ a ∈ s, a ≠ '&' :=
  splitAmp_mem_aux cs.length cs le_rfl

theorem asString_toList (s : String) : s.toList.asString = s := rfl

theorem toList_asString (l : List Char) : l.asString.toList = l := rfl

theorem cutEq_pair (k v : String) (h : '=' ∉ k.toList) :
    cutEq (k.toList ++ '=' :: v.toList) = (k, v) := by
  have hall : ∀ a ∈ k.toList, (fun c => decide (c ≠ '=')) a = true := by
    intro a ha
    simp only [decide_eq_true_eq]
    intro he
    exact h (he ▸ ha)
  rw [cutEq, takeWhile_eq_of_append _ _ _ hall (by simp),
    dropWhile_eq_of_append _ _ _ hall (by simp)]
  rfl

/- Rebuilding a well-formed Values from its pair list. -/

theorem insertVal_append_new (vs : Values) (k v : String)
    (h : ∀ p ∈ vs, strLt p.1 k) : insertVal vs k v = vs ++ [(k, [v])] := by
  induction vs with
  | nil => rfl
  | cons p rest ih =>
    obtain ⟨k', ws⟩ := p
    have hk : strLt k' k := h (k', ws) (by simp)
    rw [insertVal, if_neg (fun he => strLt_ne hk he.symm),
      if_neg (strLt_asymm hk), ih (fun q hq => h q (by simp [hq]))]
    rfl

theorem insertVal_last_group (front : Values) (k : String) (ws : List String) (v : String)
    (h : ∀ p ∈ front, strLt p.1 k) :
    insertVal (front ++ [(k, ws)]) k v = front ++ [(k, ws ++ [v])] := by
  induction front with
  | nil => simp [insertVal]
  | cons p rest ih =>
    obtain ⟨k', ws'⟩ := p
    have hk : strLt k' k := h (k', ws') (by simp)
    rw [List.cons_append, insertVal, if_neg (fun he => strLt_ne hk he.symm),
      if_neg (strLt_asymm hk), ih (fun q hq => h q (by simp [hq]))]
    rfl

theorem foldl_insert_group (ws : List String) :
    ∀ (front : Values) (k : String) (ws0 : List String), (∀ p ∈ front, strLt p.1 k) →
    (ws.map (fun w => (k, w))).foldl (fun acc kv => insertVal acc kv.1 kv.2)
        (front ++ [(k, ws0)]) =
      front ++ [(k, ws0 ++ ws)] := by
  induction ws with
  | nil => intro front k ws0 _; simp
  | cons w ws' ih =>
    intro front k ws0 hlt
    rw [List.map_cons, List.foldl_cons]
    have h1 : insertVal (front ++ [(k, ws0)]) k w = front ++ [(k, ws0 ++ [w])] :=
      insertVal_last_group front k ws0 w hlt
    rw [h1, ih front k (ws0 ++ [w]) hlt, List.append_assoc]
    simp

theorem foldl_insert_pairsOf (vs : Values) :
    ∀ (front : Values),
      (∀ p ∈ front, ∀ q ∈ vs, strLt p.1 q.1) →
      List.Pairwise keyLT vs →
      (∀ p ∈ vs, p.2 ≠ []) →
      (pairsOf vs).foldl (fun acc kv => insertVal acc kv.1 kv.2) front = front ++ vs := by
  induction vs with
  | nil => intro front _ _ _; simp [pairsOf]
  | cons p rest ih =>
    intro front hlt hpw hne
    obtain ⟨k, ws⟩ := p
    have hex : ∃ w0 ws', ws = w0 :: ws' := by
      cases hw : ws with
      | nil => exact absurd hw (hne (k, ws) (by simp))
      | cons a b => exact ⟨a, b, rfl⟩
    obtain ⟨w0, ws', hws⟩ := hex
    have hp : pairsOf ((k, ws) :: rest) = (ws.map (fun w => (k, w))) ++ pairsOf rest := rfl
    rw [hp, List.foldl_append, hws, List.map_cons, List.foldl_cons]
    have hfk : ∀ p ∈ front, strLt p.1 k := fun p hp2 => hlt p hp2 (k, ws) (by simp)
    rw [insertVal_append_new front k w0 hfk,
      foldl_insert_group ws' front k [w0] hfk]
    have hk_rest : ∀ q ∈ rest, keyLT (k, ws) q := (List.pairwise_cons.mp hpw).1
    have hlt2 : ∀ p ∈ front ++ [(k, [w0] ++ ws')], ∀ q ∈ rest, strLt p.1 q.1 := by
      intro p hp2 q hq
      rcases List.mem_append.mp hp2 with hf | hk2
      · exact hlt p hf q (by simp [hq])
      · have : p = (k, [w0] ++ ws') := by simpa using hk2
        rw [this]
        exact hk_rest q hq
    rw [ih (front ++ [(k, [w0] ++ ws')]) hlt2 (List.pairwise_cons.mp hpw).2
      (fun p hp2 => hne p (by simp [hp2]))]
    simp [hws]

theorem rebuild_pairsOf (vs : Values) (hpw : List.Pairwise keyLT vs)
    (hne2 : ∀ p ∈ vs, p.2 ≠ []) :
    (pairsOf vs).foldl (fun acc kv => insertVal acc kv.1 kv.2) [] = vs := by
  have := foldl_insert_pairsOf vs [] (by simp) hpw hne2
  simpa using this

/- Membership of the pair list. -/

theorem pairsOf_mem (vs : Values) :
    ∀ kv ∈ pairsOf vs, ∃ ws, (kv.1, ws) ∈ vs ∧ kv.2 ∈ ws := by
  induction vs with
  | nil => intro kv h; simp [pairsOf] at h
  | cons p rest ih =>
    intro kv h
    have hp : pairsOf (p :: rest) = (p.2.map (fun w => (p.1, w))) ++ pairsOf rest := rfl
    rw [hp] at h
    rcases List.mem_append.mp h with hm | hm
    · obtain ⟨w, hw, he⟩ := List.mem_map.mp hm
      refine ⟨p.2, ?_, ?_⟩
      · rw [← he]; simp
      · rw [← he]; simpa using hw
    · obtain ⟨ws, h1, h2⟩ := ih kv hm
      exact ⟨ws, by simp [h1], h2⟩

/- Parsing the encoding of a well-formed Values gives it back. -/

theorem parsePairs_encode (vs : Values)
    (hok : valsOK vs) : parsePairs (encodeValues vs) = pairsOf vs := by
  rw [parsePairs, encodeValues, toList_asString]
  have hsegs : ∀ s ∈ (pairsOf vs).map (fun kv => kv.1.toList ++ '=' :: kv.2.toList),
      s ≠ [] ∧ ∀ a ∈ s, a ≠ '&' := by
    intro s hs
    obtain ⟨kv, hkv, he⟩ := List.mem_map.mp hs
    obtain ⟨ws, hmem, hwmem⟩ := pairsOf_mem vs kv hkv
    have hk := (hok (kv.1, ws) hmem).1
    have hv := (hok (kv.1, ws) hmem).2 kv.2 hwmem
    constructor
    · rw [← he]; simp
    · intro a ha he2
      rw [← he] at ha
      rcases List.mem_append.mp ha with h1 | h1
      · exact hk.1 (he2 ▸ h1)
      · rcases List.mem_cons.mp h1 with h2 | h2
        · rw [he2] at h2; simp at h2
        · exact hv.1 (he2 ▸ h2)
  rw [splitAmp_join _ hsegs, List.filterMap_map]
  have : ∀ kv ∈ pairsOf vs,
      ((fun seg => if seg.isEmpty then none
        else if seg.contains ';' then none
        else some (cutEq seg)) ∘ fun kv => kv.1.toList ++ '=' :: kv.2.toList) kv = some kv := by
    intro kv hkv
    obtain ⟨ws, hmem, hwmem⟩ := pairsOf_mem vs kv hkv
    have hk := (hok (kv.1, ws) hmem).1
    have hv := (hok (kv.1, ws) hmem).2 kv.2 hwmem
    have hne2 : (kv.1.toList ++ '=' :: kv.2.toList).isEmpty = false := by simp
    have hnotin : ';' ∉ kv.1.toList ++ '=' :: kv.2.toList := by
      intro hmem2
      rcases List.mem_append.mp hmem2 with h1 | h1
      · exact hk.2.2 h1
      · rcases List.mem_cons.mp h1 with h2 | h2
        · simp at h2
        · exact hv.2 h2
    have hsemi : (kv.1.toList ++ '=' :: kv.2.toList).contains ';' = false := by
      simpa using hnotin
    simp only [Function.comp_apply, hne2, hsemi, Bool.false_eq_true, if_false]
    rw [cutEq_pair kv.1 kv.2 hk.2.1]
  exact filterMap_eq_self this

theorem parseQuery_encode (vs : Values) (hpw : List.Pairwise keyLT vs)
    (hne : ∀ p ∈ vs, p.2 ≠ []) (hok : valsOK vs) :
    parseQuery (encodeValues vs) = vs := by
  rw [parseQuery, parsePairs_encode vs hok, rebuild_pairsOf vs hpw hne]

/- Well-formedness of parseQuery output, and preservation by sortVals and
eraseKey. -/

theorem insertVal_mem_key (vs : Values) (k v : String) :
    ∀ q ∈ insertVal vs k v, q.1 = k ∨ q.1 ∈ vs.map Prod.fst := by
  induction vs with
  | nil =>
    intro q hq
    rw [insertVal] at hq
    rcases List.mem_cons.mp hq with he | ht
    · left; rw [he]
    · simp at ht
  | cons p rest ih =>
    intro q hq
    obtain ⟨k', ws⟩ := p
    rw [insertVal] at hq
    by_cases h1 : k = k'
    · rw [if_pos h1] at hq
      rcases List.mem_cons.mp hq with he | ht
      · right; rw [he]; simp
      · right
        simp only [List.map_cons, List.mem_cons]
        exact Or.inr (List.mem_map_of_mem Prod.fst ht)
    · rw [if_neg h1] at hq
      by_cases h2 : strLt k k'
      · rw [if_pos h2] at hq
        rcases List.mem_cons.mp hq with he | ht
        · left; rw [he]
        · right; exact List.mem_map_of_mem Prod.fst ht
      · rw [if_neg h2] at hq
        rcases List.mem_cons.mp hq with he | ht
        · right; rw [he]; simp
        · rcases ih q ht with hl | hr
          · left; exact hl
          · right; simp only [List.map_cons, List.mem_cons]; exact Or.inr hr

theorem insertVal_pairwise (vs : Values) (k v : String) (h : List.Pairwise keyLT vs) :
    List.Pairwise keyLT (insertVal vs k v) := by
  induction vs with
  | nil =>
    rw [insertVal]
    exact List.pairwise_cons.mpr ⟨by simp, List.Pairwise.nil⟩
  | cons p rest ih =>
    obtain ⟨k', ws⟩ := p
    obtain ⟨hhead, htail⟩ := List.pairwise_cons.mp h
    rw [insertVal]
    by_cases h1 : k = k'
    · rw [if_pos h1]
      exact List.pairwise_cons.mpr ⟨fun q hq => hhead q hq, htail⟩
    · rw [if_neg h1]
      by_cases h2 : strLt k k'
      · rw [if_pos h2]
        refine List.pairwise_cons.mpr ⟨?_, h⟩
        intro q hq
        rcases List.mem_cons.mp hq with he | ht
        · rw [he]; exact h2
        · exact strLt_trans h2 (hhead q ht)
      · rw [if_neg h2]
        have hk : strLt k' k := strLt_of_ne_of_not_lt h1 h2
        refine List.pairwise_cons.mpr ⟨?_, ih htail⟩
        intro q hq
        rcases insertVal_mem_key rest k v q hq with he | hm
        · show strLt k' q.1
          rw [he]; exact hk
        · obtain ⟨p2, hp2, he2⟩ := List.mem_map.mp hm
          show strLt k' q.1
          rw [← he2]
          exact hhead p2 hp2

theorem insertVal_groups (vs : Values) (k v : String) (h : ∀ p ∈ vs, p.2 ≠ []) :
    ∀ p ∈ insertVal vs k v, p.2 ≠ [] := by
  induction vs with
  | nil =>
    intro p hp
    rw [insertVal] at hp
    rcases List.mem_cons.mp hp with he | ht
    · rw [he]; simp
    · simp at ht
  | cons q rest ih =>
    intro p hp
    obtain ⟨k', ws⟩ := q
    rw [insertVal] at hp
    by_cases h1 : k = k'
    · rw [if_pos h1] at hp
      rcases List.mem_cons.mp hp with he | ht
      · rw [he]; simp
      · exact h p (by simp [ht])
    · rw [if_neg h1] at hp
      by_cases h2 : strLt k k'
      · rw [if_pos h2] at hp
        rcases List.mem_cons.mp hp with he | ht
        · rw [he]; simp
        · exact h p ht
      · rw [if_neg h2] at hp
        rcases List.mem_cons.mp hp with he | ht
        · rw [he]; exact h (k', ws) (by simp)
        · exact ih (fun q2 hq2 => h q2 (by simp [hq2])) p ht

theorem insertVal_ok (vs : Values) (k v : String) (hok : valsOK vs)
    (hk : keyOK k) (hv : valOK v) : valsOK (insertVal vs k v) := by
  induction vs with
  | nil =>
    intro p hp
    rw [insertVal] at hp
    rcases List.mem_cons.mp hp with he | ht
    · rw [he]
      exact ⟨hk, fun w hw => by rw [List.mem_singleton.mp hw]; exact hv⟩
    · simp at ht
  | cons q rest ih =>
    intro p hp
    obtain ⟨k', ws⟩ := q
    have hok_head := hok (k', ws) (by simp)
    have hok_tail : valsOK rest := fun q2 hq2 => hok q2 (by simp [hq2])
    rw [insertVal] at hp
    by_cases h1 : k = k'
    · rw [if_pos h1] at hp
      rcases List.mem_cons.mp hp with he | ht
      · rw [he]
        refine ⟨hok_head.1, ?_⟩
        intro w hw
        rcases List.mem_append.mp hw with h3 | h3
        · exact hok_head.2 w h3
        · rw [List.mem_singleton.mp h3]; exact hv
      · exact hok_tail p ht
    · rw [if_neg h1] at hp
      by_cases h2 : strLt k k'
      · rw [if_pos h2] at hp
        rcases List.mem_cons.mp hp with he | ht
        · rw [he]
          exact ⟨hk, fun w hw => by rw [List.mem_singleton.mp hw]; exact hv⟩
        · exact hok p ht
      · rw [if_neg h2] at hp
        rcases List.mem_cons.mp hp with he | ht
        · rw [he]; exact hok_head
        · exact ih hok_tail p ht

theorem foldl_insert_pairwise (l : List (String × String)) :
    ∀ acc, List.Pairwise keyLT acc →
      List.Pairwise keyLT (l.foldl (fun acc kv => insertVal acc kv.1 kv.2) acc) := by
  induction l with
  | nil => intro acc h; exact h
  | cons kv t ih =>
    intro acc h
    rw [List.foldl_cons]
    exact ih _ (insertVal_pairwise acc kv.1 kv.2 h)

theorem foldl_insert_groups (l : List (String × String)) :
    ∀ acc, (∀ p ∈ acc, p.2 ≠ []) →
      ∀ p ∈ l.foldl (fun acc kv => insertVal acc kv.1 kv.2) acc, p.2 ≠ [] := by
  induction l with
  | nil => intro acc h; exact h
  | cons kv t ih =>
    intro acc h
    rw [List.foldl_cons]
    exact ih _ (insertVal_groups acc kv.1 kv.2 h)

theorem foldl_insert_ok (l : List (String × String))
    (hl : ∀ kv ∈ l, keyOK kv.1 ∧ valOK kv.2) :
    ∀ acc, valsOK acc → valsOK (l.foldl (fun acc kv => insertVal acc kv.1 kv.2) acc) := by
  induction l with
  | nil => intro acc h; exact h
  | cons kv t ih =>
    intro acc h
    rw [List.foldl_cons]
    have hkv := hl kv (by simp)
    exact ih (fun kv2 hkv2 => hl kv2 (by simp [hkv2])) _
      (insertVal_ok acc kv.1 kv.2 h hkv.1 hkv.2)

theorem parsePairs_ok (q : String) : ∀ kv ∈ parsePairs q, keyOK kv.1 ∧ valOK kv.2 := by
  intro kv hkv
  rw [parsePairs] at hkv
  obtain ⟨seg, hseg, hf⟩ := List.mem_filterMap.mp hkv
  have hamp : ∀ a ∈ seg, a ≠ '&' := splitAmp_mem _ seg hseg
  by_cases h1 : seg.isEmpty
  · rw [if_pos h1] at hf; exact absurd hf (by simp)
  rw [if_neg h1] at hf
  by_cases h2 : seg.contains ';'
  · rw [if_pos h2] at hf; exact absurd hf (by simp)
  rw [if_neg h2] at hf
  have hsemi : ';' ∉ seg := by
    intro hm
    exact h2 (by simpa using hm)
  have hcut : cutEq seg = kv := by
    injection hf
  rw [← hcut, cutEq]
  have hksub : List.Sublist (seg.takeWhile (fun c => c ≠ '=')) seg :=
    List.takeWhile_sublist _
  have hvsub : List.Sublist ((seg.dropWhile (fun c => c ≠ '=')).tail) seg :=
    (List.tail_sublist _).trans (List.dropWhile_sublist _)
  refine ⟨⟨?_, ?_, ?_⟩, ?_, ?_⟩
  · intro hm
    exact hamp '&' (hksub.subset (by simpa using hm)) rfl
  · intro hm
    have := mem_takeWhile_pred (p := fun c => decide (c ≠ '=')) (by simpa using hm)
    simp at this
  · intro hm
    exact hsemi (hksub.subset (by simpa using hm))
  · intro hm
    exact hamp '&' (hvsub.subset (by simpa using hm)) rfl
  · intro hm
    exact hsemi (hvsub.subset (by simpa using hm))

theorem parseQuery_pairwise (q : String) : List.Pairwise keyLT (parseQuery q) :=
  foldl_insert_pairwise _ [] List.Pairwise.nil

theorem parseQuery_groups (q : String) : ∀ p ∈ parseQuery q, p.2 ≠ [] :=
  foldl_insert_groups _ [] (by intro p hp; simp at hp)

theorem parseQuery_ok (q : String) : valsOK (parseQuery q) :=
  foldl_insert_ok _ (parsePairs_ok q) [] (by intro p hp; simp at hp)

theorem sortVals_pairwise (vs : Values) (h : List.Pairwise keyLT vs) :
    List.Pairwise keyLT (sortVals vs) := by
  rw [sortVals]
  exact List.pairwise_map.mpr (h.imp (fun hab => hab))

theorem sortVals_groups (vs : Values) (h : ∀ p ∈ vs, p.2 ≠ []) :
    ∀ p ∈ sortVals vs, p.2 ≠ [] := by
  intro p hp
  obtain ⟨q, hq, he⟩ := List.mem_map.mp hp
  rw [← he]
  intro hnil
  have hlen := congrArg List.length hnil
  rw [List.length_insertionSort] at hlen
  exact h q hq (List.length_eq_zero.mp hlen)

theorem sortVals_ok (vs : Values) (h : valsOK vs) : valsOK (sortVals vs) := by
  intro p hp
  obtain ⟨q, hq, he⟩ := List.mem_map.mp hp
  obtain ⟨hk, hw⟩ := h q hq
  rw [← he]
  exact ⟨hk, fun w hwm => hw w (by simpa using hwm)⟩

theorem hasKey_sortVals (vs : Values) (k : String) :
    hasKey (sortVals vs) k = hasKey vs k := by
  rw [hasKey, hasKey, sortVals, List.any_map]
  rfl

theorem eraseKey_pairwise (vs : Values) (k : String) (h : List.Pairwise keyLT vs) :
    List.Pairwise keyLT (eraseKey vs k) :=
  List.Pairwise.sublist (List.filter_sublist vs) h

theorem eraseKey_groups (vs : Values) (k : String) (h : ∀ p ∈ vs, p.2 ≠ []) :
    ∀ p ∈ eraseKey vs k, p.2 ≠ [] :=
  fun p hp => h p (List.mem_of_mem_filter hp)

theorem eraseKey_ok (vs : Values) (k : String) (h : valsOK vs) : valsOK (eraseKey vs k) :=
  fun p hp => h p (List.mem_of_mem_filter hp)

theorem hasKey_eraseKey (vs : Values) (k : String) : hasKey (eraseKey vs k) k = false := by
  rw [hasKey, eraseKey]
  rw [List.any_eq_false]
  intro p hp
  have := (List.mem_filter.mp hp).2
  simpa using this

/-- Re-parsing a normalized query yields exactly the value-sorted parse of
the original query. -/
theorem parseQuery_sortURLParamsQ (q : String) :
    parseQuery (sortURLParamsQ q) = sortVals (parseQuery q) := by
  rw [sortURLParamsQ]
  exact parseQuery_encode _ (sortVals_pairwise _ (parseQuery_pairwise q))
    (sortVals_groups _ (parseQuery_groups q)) (sortVals_ok _ (parseQuery_ok q))

/-- Re-parsing the encoding of an erased parse yields the erased parse:
the handler's view of the rewritten query contains exactly the surviving
parameters. -/
theorem parseQuery_encode_eraseKey (q : String) (k : String) :
    parseQuery (encodeValues (eraseKey (parseQuery q) k)) = eraseKey (parseQuery q) k :=
  parseQuery_encode _ (eraseKey_pairwise _ k (parseQuery_pairwise q))
    (eraseKey_groups _ k (parseQuery_groups q)) (eraseKey_ok _ k (parseQuery_ok q))

/- Middleware-level helper lemmas. -/

theorem forward_outcome (c : Client) (next : Handler) (now : Nat) (r : Request)
    (key : Nat) (store : Store) :
    (forward c next now r key store).outcome =
      Outcome.forwarded r (decide ((runWriter (next r).events).statusCode < 400)) := by
  by_cases h : (runWriter (next r).events).statusCode < 400
  · simp [forward, h]
  · simp [forward, h]

theorem runWriter_status_of_no_writeheader :
    ∀ (evs : List WriterEvent) (w : WriterState),
      evs.all (fun ev => !isWriteHeader ev) = true →
      (evs.foldl writerStep w).statusCode = w.statusCode := by
  intro evs
  induction evs with
  | nil => intro w _; rfl
  | cons ev t ih =>
    intro w h
    simp only [List.all_cons, Bool.and_eq_true] at h
    cases ev with
    | writeHeader s => simp [isWriteHeader] at h
    | write b =>
      rw [List.foldl_cons, ih _ h.2]
      rfl

theorem qEquiv_sortVals : ∀ v1 v2, qEquiv v1 v2 = true → sortVals v1 = sortVals v2 := by
  intro v1
  induction v1 with
  | nil =>
    intro v2 h
    cases v2 with
    | nil => rfl
    | cons p t => simp [qEquiv] at h
  | cons p t1 ih =>
    intro v2 h
    obtain ⟨k1, ws1⟩ := p
    cases v2 with
    | nil => simp [qEquiv] at h
    | cons q t2 =>
      obtain ⟨k2, ws2⟩ := q
      rw [qEquiv] at h
      simp only [Bool.and_eq_true, beq_iff_eq] at h
      obtain ⟨⟨hk, hperm⟩, hrest⟩ := h
      have hp : ws1.Perm ws2 := List.isPerm_iff.mp hperm
      have hsort : ws1.insertionSort strLe = ws2.insertionSort strLe :=
        List.eq_of_perm_of_sorted
          (((List.perm_insertionSort _ ws1).trans hp).trans
            (List.perm_insertionSort _ ws2).symm)
          (List.sorted_insertionSort _ ws1) (List.sorted_insertionSort _ ws2)
      have ht := ih t2 hrest
      simp only [sortVals, List.map_cons] at ht ⊢
      rw [hk, hsort, ht]

/- Claim theorems and witnesses. -/

/-- C1: for every forwarded request, after the wrapped handler returns, a new
entry is stored under the derived key iff the captured status code is below
400; the stored entry has payload = captured body, headers = captured
response headers, expiration = now + ttl, lastAccess = now and frequency = 1,
and with status at least 400 nothing is written to the adapter. -/
theorem forward_stores_iff_success (c : Client) (next : Handler) (now : Nat)
    (r : Request) (key : Nat) (store : Store) :
    (forward c next now r key store).trace =
      (if (runWriter (next r).events).statusCode < 400 then
        [AdapterOp.set key
          (Response.Bytes
            { Value := (runWriter (next r).events).body, Header := (next r).header,
              Expiration := now + c.ttl, LastAccess := now, Frequency := 1 })
          (now + c.ttl)]
      else []) ∧
    (forward c next now r key store).store =
      (if (runWriter (next r).events).statusCode < 400 then
        storeSet store key
          (Response.Bytes
            { Value := (runWriter (next r).events).body, Header := (next r).header,
              Expiration := now + c.ttl, LastAccess := now, Frequency := 1 })
      else store) := by
  by_cases h : (runWriter (next r).events).statusCode < 400
  · constructor <;> simp [forward, h]
  · constructor <;> simp [forward, h]

/-- C7 (code bug evidence): the capturing writer records only the bytes of
the last Write call — after writing "hel" then "lo" the recorded body is
"lo", not the concatenation — so the entry stored by the forward path for a
two-chunk handler carries only the final chunk as payload. -/
theorem writer_keeps_last_chunk_only :
    (runWriter [WriterEvent.writeHeader 200, WriterEvent.write (strBytes "hel"),
        WriterEvent.write (strBytes "lo")]).body = strBytes "lo" ∧
    strBytes "lo" ≠ strBytes "hel" ++ strBytes "lo" ∧
    (forward cGet
        (fun _ =>
          { events := [WriterEvent.writeHeader 200, WriterEvent.write (strBytes "hel"),
              WriterEvent.write (strBytes "lo")],
            header := [] })
        5 rPlain 7 []).trace =
      [AdapterOp.set 7
        (Response.Bytes
          { Value := strBytes "lo", Header := [], Expiration := 15, LastAccess := 5,
            Frequency := 1 })
        15] := by
  refine ⟨rfl, by decide, rfl⟩

/-- C10: when the wrapped handler never calls WriteHeader, the recorded
status code keeps its zero value 0, which satisfies the status < 400 gate,
so the captured response is stored exactly as a success would be. -/
theorem no_writeheader_stored (c : Client) (next : Handler) (now : Nat)
    (r : Request) (key : Nat) (store : Store)
    (h : (next r).events.all (fun ev => !isWriteHeader ev) = true) :
    (runWriter (next r).events).statusCode = 0 ∧
    (forward c next now r key store).trace =
      [AdapterOp.set key
        (Response.Bytes
          { Value := (runWriter (next r).events).body, Header := (next r).header,
            Expiration := now + c.ttl, LastAccess := now, Frequency := 1 })
        (now + c.ttl)] := by
  have h0 : (runWriter (next r).events).statusCode = 0 :=
    runWriter_status_of_no_writeheader _ _ h
  have hlt : (runWriter (next r).events).statusCode < 400 := by
    rw [h0]
    omega
  refine ⟨h0, ?_⟩
  simp [forward, hlt]

/-- Witness for C10 at a concrete handler that only writes a body. -/
theorem no_writeheader_stored_witness :
    ((hNoStatus rPlain).events.all (fun ev => !isWriteHeader ev) = true) ∧
    ((runWriter (hNoStatus rPlain).events).statusCode = 0 ∧
      (forward cGet hNoStatus 5 rPlain 7 []).trace =
        [AdapterOp.set 7
          (Response.Bytes
            { Value := (runWriter (hNoStatus rPlain).events).body,
              Header := (hNoStatus rPlain).header,
              Expiration := 5 + cGet.ttl, LastAccess := 5, Frequency := 1 })
          (5 + cGet.ttl)]) :=
  ⟨by decide, no_writeheader_stored cGet hNoStatus 5 rPlain 7 [] (by decide)⟩

/-- C4: decoding the encoding of an entry with non-empty payload returns the
entry exactly: all five fields round-trip, including multiple values per
header and header-name case as supplied. -/
theorem codec_roundtrip (e : Response) (_h : e.Value ≠ []) :
    BytesToResponse e.Bytes = e :=
  bytesToResponse_bytes e

/-- Witness for C4 at a concrete entry with multi-value, mixed-case
headers. -/
theorem codec_roundtrip_witness :
    eMulti.Value ≠ [] ∧ BytesToResponse eMulti.Bytes = eMulti :=
  ⟨by decide, codec_roundtrip eMulti (by decide)⟩

/-- C5: decode never propagates an error; on input that is not a complete
encoding (including the empty input) it returns the zero-valued entry, whose
expiration 0 the freshness check classifies as stale at every instant, so
absent and corrupt stored bytes are both a miss. -/
theorem decode_total_malformed_stale (b : List Nat) (now : Nat)
    (h : decResponse b = none) :
    BytesToResponse b = zeroResponse ∧
    BytesToResponse [] = zeroResponse ∧
    ¬ now < (BytesToResponse b).Expiration := by
  have hz : BytesToResponse b = zeroResponse := by
    unfold BytesToResponse
    rw [h]
  refine ⟨hz, rfl, ?_⟩
  rw [hz]
  simp [zeroResponse]

/-- Witness for C5 at the concrete malformed input [255]. -/
theorem decode_total_malformed_stale_witness :
    decResponse [255] = none ∧
    (BytesToResponse [255] = zeroResponse ∧ BytesToResponse [] = zeroResponse ∧
      ¬ 5 < (BytesToResponse [255]).Expiration) :=
  ⟨by decide, decode_total_malformed_stale [255] 5 (by decide)⟩

/-- C2: with a stored entry present under the derived key, the middleware
serves it from cache iff its expiration is strictly after the current time;
an entry whose expiration equals the current time exactly is stale and the
request is forwarded to the wrapped handler. -/
theorem lookup_serves_iff_fresh (c : Client) (next : Handler) (now : Nat)
    (r : Request) (store : Store) (b : List Nat)
    (hm : cacheableMethod c r.method = true)
    (hr : hasKey (parseQuery (sortURLParamsR r).rawQuery) c.refreshKey = false)
    (hg : storeGet store (chash c (sortURLParamsR r)) = some b) :
    ((Middleware c next now r store).outcome.servedFromCache = true ↔
      now < (BytesToResponse b).Expiration) ∧
    ((BytesToResponse b).Expiration = now →
      (Middleware c next now r store).outcome.wasForwarded = true) := by
  by_cases hf : now < (BytesToResponse b).Expiration
  · constructor
    · simp [Middleware, hm, hr, hg, hf, Outcome.servedFromCache]
    · intro he
      rw [he] at hf
      exact absurd hf (lt_irrefl now)
  · constructor
    · simp [Middleware, hm, hr, hg, hf, forward_outcome, Outcome.servedFromCache]
    · intro _
      simp [Middleware, hm, hr, hg, hf, forward_outcome, Outcome.wasForwarded]

/-- Witness for C2: a fresh concrete entry is served from cache. -/
theorem lookup_serves_iff_fresh_witness :
    cacheableMethod cGet rPlain.method = true ∧
    hasKey (parseQuery (sortURLParamsR rPlain).rawQuery) cGet.refreshKey = false ∧
    storeGet sFresh (chash cGet (sortURLParamsR rPlain)) = some eFresh.Bytes ∧
    (((Middleware cGet hOk 5 rPlain sFresh).outcome.servedFromCache = true ↔
        5 < (BytesToResponse eFresh.Bytes).Expiration) ∧
      ((BytesToResponse eFresh.Bytes).Expiration = 5 →
        (Middleware cGet hOk 5 rPlain sFresh).outcome.wasForwarded = true)) :=
  ⟨by decide, by decide, by decide,
    lookup_serves_iff_fresh cGet hOk 5 rPlain sFresh eFresh.Bytes
      (by decide) (by decide) (by decide)⟩

/-- C9: on a fresh hit the only entry fields changed before persisting are
lastAccess (set to now) and frequency (incremented by exactly one); payload,
headers and expiration are unchanged, and the mutated entry is written back
under the same key with the same expiration. -/
theorem fresh_hit_bookkeeping (c : Client) (next : Handler) (now : Nat)
    (r : Request) (store : Store) (b : List Nat)
    (hm : cacheableMethod c r.method = true)
    (hr : hasKey (parseQuery (sortURLParamsR r).rawQuery) c.refreshKey = false)
    (hg : storeGet store (chash c (sortURLParamsR r)) = some b)
    (hf : now < (BytesToResponse b).Expiration) :
    (Middleware c next now r store).trace =
      [AdapterOp.get (chash c (sortURLParamsR r)),
       AdapterOp.set (chash c (sortURLParamsR r))
         (Response.Bytes
           { (BytesToResponse b) with
             LastAccess := now,
             Frequency := (BytesToResponse b).Frequency + 1 })
         (BytesToResponse b).Expiration] ∧
    (Middleware c next now r store).outcome =
      Outcome.fromCache
        { (BytesToResponse b) with
          LastAccess := now,
          Frequency := (BytesToResponse b).Frequency + 1 } := by
  constructor <;> simp [Middleware, hm, hr, hg, hf]

/-- Witness for C9 at the concrete fresh entry. -/
theorem fresh_hit_bookkeeping_witness :
    cacheableMethod cGet rPlain.method = true ∧
    5 < (BytesToResponse eFresh.Bytes).Expiration ∧
    ((Middleware cGet hOk 5 rPlain sFresh).trace =
      [AdapterOp.get (chash cGet (sortURLParamsR rPlain)),
       AdapterOp.set (chash cGet (sortURLParamsR rPlain))
         (Response.Bytes
           { (BytesToResponse eFresh.Bytes) with
             LastAccess := 5,
             Frequency := (BytesToResponse eFresh.Bytes).Frequency + 1 })
         (BytesToResponse eFresh.Bytes).Expiration] ∧
     (Middleware cGet hOk 5 rPlain sFresh).outcome =
       Outcome.fromCache
         { (BytesToResponse eFresh.Bytes) with
           LastAccess := 5,
           Frequency := (BytesToResponse eFresh.Bytes).Frequency + 1 }) :=
  ⟨by decide, by decide,
    fresh_hit_bookkeeping cGet hOk 5 rPlain sFresh eFresh.Bytes
      (by decide) (by decide) (by decide) (by decide)⟩

/-- C3: a request carrying the configured refresh parameter has the parameter
removed from the query string, the cache key recomputed from the modified
request, any entry at the recomputed key released, and is then forwarded to
the wrapped handler — it always misses, whatever the store held — and the
parameter is absent from the rewritten query the handler and the key
derivation see. -/
theorem refresh_releases_and_forwards (c : Client) (next : Handler) (now : Nat)
    (r : Request) (store : Store)
    (hm : cacheableMethod c r.method = true)
    (hk : hasKey (parseQuery (sortURLParamsR r).rawQuery) c.refreshKey = true) :
    Middleware c next now r store =
      (let r2 : Request := { sortURLParamsR r with
        rawQuery :=
          encodeValues (eraseKey (parseQuery (sortURLParamsR r).rawQuery) c.refreshKey) }
       let key2 := chash c r2
       let fr := forward c next now r2 key2 (storeRelease store key2)
       { fr with trace := AdapterOp.release key2 :: fr.trace }) ∧
    hasKey
      (parseQuery
        (encodeValues (eraseKey (parseQuery (sortURLParamsR r).rawQuery) c.refreshKey)))
      c.refreshKey = false ∧
    (Middleware c next now r store).outcome.wasForwarded = true ∧
    (Middleware c next now r store).outcome.servedFromCache = false := by
  refine ⟨by simp [Middleware, hm, hk], ?_, ?_, ?_⟩
  · rw [parseQuery_encode_eraseKey]
    exact hasKey_eraseKey _ _
  · simp [Middleware, hm, hk, forward_outcome, Outcome.wasForwarded]
  · simp [Middleware, hm, hk, forward_outcome, Outcome.servedFromCache]

/-- Witness for C3 at the configured name "_refresh" with a fresh entry in
store. -/
theorem refresh_releases_and_forwards_witness :
    cacheableMethod cRefresh rRefresh.method = true ∧
    hasKey (parseQuery (sortURLParamsR rRefresh).rawQuery) cRefresh.refreshKey = true ∧
    (Middleware cRefresh hOk 5 rRefresh sFresh =
      (let r2 : Request := { sortURLParamsR rRefresh with
        rawQuery :=
          encodeValues
            (eraseKey (parseQuery (sortURLParamsR rRefresh).rawQuery) cRefresh.refreshKey) }
       let key2 := chash cRefresh r2
       let fr := forward cRefresh hOk 5 r2 key2 (storeRelease sFresh key2)
       { fr with trace := AdapterOp.release key2 :: fr.trace }) ∧
     hasKey
       (parseQuery
         (encodeValues
           (eraseKey (parseQuery (sortURLParamsR rRefresh).rawQuery) cRefresh.refreshKey)))
       cRefresh.refreshKey = false ∧
     (Middleware cRefresh hOk 5 rRefresh sFresh).outcome.wasForwarded = true ∧
     (Middleware cRefresh hOk 5 rRefresh sFresh).outcome.servedFromCache = false) :=
  ⟨by decide, by decide,
    refresh_releases_and_forwards cRefresh hOk 5 rRefresh sFresh (by decide) (by decide)⟩

/-- C6 counterexample: with singleton, already-sorted values, normalization
would leave "b=1&a=2" untouched if parameter order were preserved, but the
code re-encodes with keys sorted: the result is "a=2&b=1" and the parameter
sequence changes from [b, a] to [a, b]. -/
theorem sort_params_reorders_cex :
    sortURLParamsQ "b=1&a=2" = "a=2&b=1" ∧
    sortURLParamsQ "b=1&a=2" ≠ "b=1&a=2" ∧
    (parsePairs "b=1&a=2").map Prod.fst = ["b", "a"] ∧
    (parsePairs (sortURLParamsQ "b=1&a=2")).map Prod.fst = ["a", "b"] :=
  ⟨by decide, by decide, by decide, by decide⟩

/-- C6 (amended): normalization sorts the values within each parameter and
re-encodes the query with parameters in sorted-name order (name case is
preserved in the output but participates in the ordering); consequently two
requests that differ only in the internal ordering of a repeated query
parameter's values derive the identical cache key. -/
theorem equal_value_sets_same_key (c : Client) (r1 r2 : Request)
    (hm : r1.method = r2.method) (hp : r1.path = r2.path)
    (hh : r1.header = r2.header) (hb : r1.body = r2.body)
    (hq : qEquiv (parseQuery r1.rawQuery) (parseQuery r2.rawQuery) = true) :
    chash c (sortURLParamsR r1) = chash c (sortURLParamsR r2) := by
  have hreq : sortURLParamsR r1 = sortURLParamsR r2 := by
    obtain ⟨m1, p1, q1, h1, b1⟩ := r1
    obtain ⟨m2, p2, q2, h2, b2⟩ := r2
    simp only at hm hp hh hb hq
    subst hm
    subst hp
    subst hh
    subst hb
    simp only [sortURLParamsR, sortURLParamsQ, Request.mk.injEq, and_true, true_and]
    exact congrArg encodeValues (qEquiv_sortVals _ _ hq)
  rw [hreq]

/-- Witness for C6 (amended) on the spec's scenario pair ?x=2&x=1 and
?x=1&x=2. -/
theorem equal_value_sets_same_key_witness :
    rVals.method = rVals2.method ∧ rVals.path = rVals2.path ∧
    rVals.header = rVals2.header ∧ rVals.body = rVals2.body ∧
    qEquiv (parseQuery rVals.rawQuery) (parseQuery rVals2.rawQuery) = true ∧
    chash cGet (sortURLParamsR rVals) = chash cGet (sortURLParamsR rVals2) :=
  ⟨rfl, rfl, rfl, rfl, by decide,
    equal_value_sets_same_key cGet rVals rVals2 rfl rfl rfl rfl (by decide)⟩

/-- C8 counterexample: with no refresh-parameter name configured (refreshKey
is the empty string), the request "GET /a?=1" still triggers the refresh
sequence — its first adapter operation is a Release at the key recomputed
from the parameter-stripped request, not the lookup's Get — and the fresh
entry stored under the request's own derived key is not served. -/
theorem empty_refreshkey_not_disabled_cex :
    cGet.refreshKey = "" ∧
    cacheableMethod cGet rNoName.method = true ∧
    storeGet sNoName (chash cGet (sortURLParamsR rNoName)) = some eFresh.Bytes ∧
    5 < (BytesToResponse eFresh.Bytes).Expiration ∧
    (Middleware cGet hOk 5 rNoName sNoName).trace.head? =
      some (AdapterOp.release (chash cGet { rNoName with rawQuery := "" })) ∧
    (Middleware cGet hOk 5 rNoName sNoName).outcome.servedFromCache = false :=
  ⟨rfl, by decide, by decide, by decide, by decide, by decide⟩

/-- C8 (amended): with no refresh-parameter name configured, a cacheable
request whose query string contains no empty-named parameter proceeds
directly to the normal lookup (its first adapter operation is the Get at the
derived key); only a query with an empty-named parameter, such as "?=1",
still triggers the remove/recompute/release sequence. -/
theorem empty_refreshkey_lookup (c : Client) (next : Handler) (now : Nat)
    (r : Request) (store : Store)
    (hc : c.refreshKey = "")
    (hm : cacheableMethod c r.method = true)
    (hq : hasKey (parseQuery r.rawQuery) "" = false) :
    (Middleware c next now r store).trace.head? =
      some (AdapterOp.get (chash c (sortURLParamsR r))) := by
  have hkey : hasKey (parseQuery (sortURLParamsR r).rawQuery) c.refreshKey = false := by
    rw [hc]
    show hasKey (parseQuery (sortURLParamsQ r.rawQuery)) "" = false
    rw [parseQuery_sortURLParamsQ, hasKey_sortVals]
    exact hq
  rcases hget : storeGet store (chash c (sortURLParamsR r)) with _ | b
  · simp [Middleware, hm, hkey, hget]
  · by_cases hf : now < (BytesToResponse b).Expiration
    · simp [Middleware, hm, hkey, hget, hf]
    · simp [Middleware, hm, hkey, hget, hf]

/-- Witness for C8 (amended) on a query with no empty-named parameter. -/
theorem empty_refreshkey_lookup_witness :
    cGet.refreshKey = "" ∧ cacheableMethod cGet rVals.method = true ∧
    hasKey (parseQuery rVals.rawQuery) "" = false ∧
    (Middleware cGet hOk 5 rVals []).trace.head? =
      some (AdapterOp.get (chash cGet (sortURLParamsR rVals))) :=
  ⟨rfl, by decide, by decide,
    empty_refreshkey_lookup cGet hOk 5 rVals [] rfl (by decide) (by decide)⟩

end HttpCache
